import Mathlib

/-!
Verification of the riff diff-highlighter core against its specification.

The development shallowly embeds the Rust sources:
  - src/constants.rs   : escape-sequence constants
  - src/refiner.rs     : `Refiner::simple_format`, `Refiner::refine`, `Refiner::format`
  - src/token_collector.rs : `Style`, `StyledToken`, the highlight passes and rendering
  - src/line_collector.rs  : the `LineCollector` consume state machine and the
    ordered output queue (`StringFuture` + printer thread)

Code of the repository that is referenced by the sources but not present under
src/ (the tokenizer, the diffus edit-script computation, commit-line formatting,
filename-header rendering) is modelled from the spec where needed; each such
definition is marked `Modelled from the spec:` in its doc comment.

Machine strings are embedded as Lean `String` (a wrapper around `List Char`);
fatal panics/assertions are embedded as `Except.error`.
-/

/-! ## Constants (src/constants.rs) -/

/-- `OLD` in constants.rs: red. -/
def OLD : String := "\x1b[31m"

/-- `NEW` in constants.rs: green. -/
def NEW : String := "\x1b[32m"

/-- `ERROR` in constants.rs: same red as `OLD`. -/
def ERROR : String := "\x1b[31m"

/-- `INVERSE_VIDEO` in constants.rs. -/
def INVERSE_VIDEO : String := "\x1b[7m"

/-- `NOT_INVERSE_VIDEO` in constants.rs. -/
def NOT_INVERSE_VIDEO : String := "\x1b[27m"

/-- `NO_EOF_NEWLINE_COLOR` in constants.rs: faint. -/
def NO_EOF_NEWLINE_COLOR : String := "\x1b[2m"

/-- `NO_EOF_NEWLINE_MARKER` in constants.rs: the built-in default marker text. -/
def NO_EOF_NEWLINE_MARKER : String := "\\ No newline at end of file"

/-- `BOLD` in constants.rs. -/
def BOLD : String := "\x1b[1m"

/-- `FAINT` in constants.rs. -/
def FAINT : String := "\x1b[2m"

/-- `NORMAL` in constants.rs: full reset. -/
def NORMAL : String := "\x1b[0m"

/-! ## Character/String utilities

These model the Rust standard-library operations used by the sources:
`str::lines`, `str::ends_with('\n')`, and substring occurrence checks used to
state the "no inverse-video escape appears" properties. -/

/-- The ASCII escape character, first byte of every ANSI escape sequence. -/
def escChar : Char := '\x1b'

/-- Does a character list start with `"[7m"`, i.e. the tail of the
inverse-video escape sequence? -/
def startsInvTail : List Char → Bool
  | '[' :: '7' :: 'm' :: _ => true
  | _ => false

/-- Does the character list contain the inverse-video escape sequence
`ESC [ 7 m` as a contiguous substring?  Used to state the "no inverse-video
escapes appear in the output" claims. -/
def hasInv : List Char → Bool
  | [] => false
  | c :: rest => (decide (c = escChar) && startsInvTail rest) || hasInv rest

/-- Generic contiguous-substring test over character lists (used for concrete
counterexample statements). -/
def containsSeq (pat : List Char) : List Char → Bool
  | [] => pat.isEmpty
  | c :: rest => pat.isPrefixOf (c :: rest) || containsSeq pat rest

/-- `noEsc s`: the string contains no ASCII escape character at all.  This is
the input contract of the core (spec praragraph 6: lines reaching the core are
already free of terminal escape sequences). -/
def noEsc (s : String) : Bool := s.data.all (fun c => c != escChar)

/-- Split a character list at every newline character.  Always returns at
least one (possibly empty) segment; a trailing newline yields a trailing
empty segment. -/
def splitNl : List Char → List (List Char)
  | [] => [[]]
  | c :: rest =>
    let s := splitNl rest
    if c = '\n' then [] :: s
    else (c :: s.headD []) :: s.tailD []

/-- Strip one trailing carriage return (Rust's `str::lines` treats `\r\n` as a
line terminator). -/
def stripCr (l : List Char) : List Char :=
  if l.getLast? = some '\r' then l.dropLast else l

/-- Post-process the segments of `splitNl` the way Rust's `str::lines` does:
every segment that was terminated by a newline loses a trailing `\r`, and a
final empty segment (from a trailing newline, or an empty input) is dropped. -/
def fixSegs : List (List Char) → List (List Char)
  | [] => []
  | [s] => if s.isEmpty then [] else [s]
  | s :: rest => stripCr s :: fixSegs rest

/-- Embedding of Rust's `str::lines`. -/
def rustLines (s : String) : List String :=
  (fixSegs (splitNl s.data)).map fun l => ⟨l⟩

/-- Embedding of Rust's `str::ends_with('\n')`. -/
def endsNl (s : String) : Bool := s.data.getLast? = some '\n'

/-! ## Tokenizer

`crate::tokenizer` is code of this repository that is not under src/ (only its
caller `refiner.rs` is). -/

/-- Helper for `tokenize`: `acc` holds the characters of the alphanumeric word
currently being built, in reverse order. -/
def tokenizeGo : List Char → List Char → List String
  | [], acc => if acc.isEmpty then [] else [⟨acc.reverse⟩]
  | c :: rest, acc =>
    if c.isAlphanum then tokenizeGo rest (c :: acc)
    else if acc.isEmpty then (⟨[c]⟩ : String) :: tokenizeGo rest []
    else (⟨acc.reverse⟩ : String) :: (⟨[c]⟩ : String) :: tokenizeGo rest []

/-- Modelled from the spec: `crate::tokenizer::tokenize` is not under src/.
Spec paragraph 4.1: walk the string, extending a token while consecutive
characters are alphanumeric; any other character (newline, space, tab,
punctuation) becomes its own single-character token.  Concatenating the tokens
round-trips to the original string. -/
def tokenize (s : String) : List String := tokenizeGo s.data []

/-! ## Token-level edit script

The script is computed by the external `diffus` crate (not part of this
repository).  Spec paragraph 4.2: a longest-common-subsequence-based alignment
yielding `Copy`/`Insert`/`Remove` operations.  The `CEdit` type mirrors
diffus's `collection::Edit`, including the nested `change` constructor that
`refiner.rs` line 138 answers with an unconditional panic. -/

/-- Mirror of diffus `collection::Edit` for a sequence of string tokens.  The
`change` constructor exists in the diffus API but is claimed never to be
produced for flat token sequences. -/
inductive CEdit where
  | copy (tok : String)
  | insert (tok : String)
  | remove (tok : String)
  | change (oldTok newTok : String)
deriving DecidableEq, Repr

/-- Fuelled longest-common-subsequence length.  The fuel only serves to make
the recursion structural (hence kernel-computable); `lcsLen` supplies enough
fuel for it never to run out. -/
def lcsLenF : Nat → List String → List String → Nat
  | 0, _, _ => 0
  | _ + 1, [], _ => 0
  | _ + 1, _ :: _, [] => 0
  | f + 1, x :: xs, y :: ys =>
    if x = y then lcsLenF f xs ys + 1
    else max (lcsLenF f xs (y :: ys)) (lcsLenF f (x :: xs) ys)

/-- Longest-common-subsequence length of two token lists. -/
def lcsLen (xs ys : List String) : Nat := lcsLenF (xs.length + ys.length) xs ys

/-- Fuelled edit-script computation, see `editScript`. -/
def editScriptF : Nat → List String → List String → List CEdit
  | 0, _, _ => []
  | _ + 1, [], [] => []
  | f + 1, [], y :: ys => .insert y :: editScriptF f [] ys
  | f + 1, x :: xs, [] => .remove x :: editScriptF f xs []
  | f + 1, x :: xs, y :: ys =>
    if x = y then .copy x :: editScriptF f xs ys
    else if lcsLen xs (y :: ys) ≥ lcsLen (x :: xs) ys then
      .remove x :: editScriptF f xs (y :: ys)
    else
      .insert y :: editScriptF f (x :: xs) ys

/-- Modelled from the spec: the edit script is computed by the external
`diffus` crate, which is not part of this repository.  Spec paragraph 4.2:
"compute a token-level edit script via a longest-common-subsequence-based
alignment yielding a sequence of `Copy(token)` / `Insert(token)` /
`Remove(token)` operations".  The fuel only makes the recursion structural;
`xs.length + ys.length` steps always suffice. -/
def editScript (xs ys : List String) : List CEdit :=
  editScriptF (xs.length + ys.length) xs ys

/-! ## Refiner (src/refiner.rs) -/

namespace Refiner

/-- `MAX_HIGHLIGHT_PERCENTAGE` in refiner.rs. -/
def MAX_HIGHLIGHT_PERCENTAGE : Nat := 30

/-- `OK_HIGHLIGHT_COUNT` in refiner.rs. -/
def OK_HIGHLIGHT_COUNT : Nat := 5

/-- An old-side line as formatted by `simple_format` and `refine`:
`format!("{}-{}{}", OLD, line, NORMAL)`. -/
def mkOldLine (l : String) : String := OLD ++ "-" ++ l ++ NORMAL

/-- A new-side line as formatted by `simple_format` and `refine`:
`format!("{}+{}{}", NEW, line, NORMAL)`. -/
def mkNewLine (l : String) : String := NEW ++ "+" ++ l ++ NORMAL

/-- The synthesized "no newline at end of file" line:
`format!("{}{}{}", NO_EOF_NEWLINE_COLOR, NO_EOF_NEWLINE_MARKER, NORMAL)`.
Note that refiner.rs always uses the built-in `NO_EOF_NEWLINE_MARKER`
constant here; it never reads `NO_EOF_NEWLINE_MARKER_HOLDER`. -/
def noEofLine : String := NO_EOF_NEWLINE_COLOR ++ NO_EOF_NEWLINE_MARKER ++ NORMAL

/-- `Refiner::simple_format` (refiner.rs lines 31-55): old lines in OLD color,
then the default no-EOF-newline line if the old text is non-empty and lacks a
trailing newline; then the same for the new side. -/
def simple_format (old_text new_text : String) : List String :=
  ((rustLines old_text).map mkOldLine ++
      (if old_text ≠ "" ∧ endsNl old_text = false then [noEofLine] else [])) ++
    ((rustLines new_text).map mkNewLine ++
      (if new_text ≠ "" ∧ endsNl new_text = false then [noEofLine] else []))

/-- The mutable locals of `Refiner::refine`'s edit-processing loop
(refiner.rs lines 69-74). -/
structure HLState where
  highlighted_old_text : String
  highlighted_new_text : String
  old_is_inverse : Bool
  new_is_inverse : Bool
  old_highlight_count : Nat
  new_highlight_count : Nat
deriving DecidableEq, Repr

/-- Initial `HLState`: empty texts, not inverse, zero counts. -/
def initHL : HLState :=
  { highlighted_old_text := "", highlighted_new_text := "",
    old_is_inverse := false, new_is_inverse := false,
    old_highlight_count := 0, new_highlight_count := 0 }

/-- One step of `Refiner::refine`'s match on a collection edit
(refiner.rs lines 91-139).  The `change` arm is the source's
`panic!("Not implemented, help!")`, embedded as an error. -/
def processEdit (h : HLState) : CEdit → Except String HLState
  | .copy elem =>
    let h :=
      { h with
        highlighted_new_text :=
          (if h.new_is_inverse then h.highlighted_new_text ++ NOT_INVERSE_VIDEO
           else h.highlighted_new_text) ++ elem,
        new_is_inverse := false,
        highlighted_old_text :=
          (if h.old_is_inverse then h.highlighted_old_text ++ NOT_INVERSE_VIDEO
           else h.highlighted_old_text) ++ elem,
        old_is_inverse := false }
    .ok h
  | .insert elem =>
    let t := if h.new_is_inverse then h.highlighted_new_text
             else h.highlighted_new_text ++ INVERSE_VIDEO
    let t := if elem = "\n" then t ++ "⏎" else t
    .ok { h with
          new_highlight_count := h.new_highlight_count + 1,
          highlighted_new_text := t ++ elem,
          new_is_inverse := ¬(elem = "\n") }
  | .remove elem =>
    let t := if h.old_is_inverse then h.highlighted_old_text
             else h.highlighted_old_text ++ INVERSE_VIDEO
    let t := if elem = "\n" then t ++ "⏎" else t
    .ok { h with
          old_highlight_count := h.old_highlight_count + 1,
          highlighted_old_text := t ++ elem,
          old_is_inverse := ¬(elem = "\n") }
  | .change _ _ => .error "Not implemented, help!"

/-- Fold `processEdit` over a whole edit script. -/
def processScript (h : HLState) : List CEdit → Except String HLState
  | [] => .ok h
  | e :: rest => do processScript (← processEdit h e) rest

/-- Assembling `refine`'s result lines from the highlighted texts
(refiner.rs lines 156-177): highlighted old lines, the old no-EOF line if the
original old text lacks a trailing newline, then the same for the new side. -/
def assemble (old_text new_text : String) (h : HLState) : List String :=
  ((rustLines h.highlighted_old_text).map mkOldLine ++
      (if old_text ≠ "" ∧ endsNl old_text = false then [noEofLine] else [])) ++
    ((rustLines h.highlighted_new_text).map mkNewLine ++
      (if new_text ≠ "" ∧ endsNl new_text = false then [noEofLine] else []))

/-- `Refiner::refine` (refiner.rs lines 59-178).  Empty new side or empty old
side short-circuits to `simple_format`; otherwise both sides are tokenized,
the edit script is processed into two highlighted texts, the
highlight-percentage heuristic may discard the highlighting in favour of
`simple_format`, and the lines are assembled.  The unreachable nested-change
panic is the `Except.error` case.  (When the two token sequences are equal,
diffus returns a top-level `Edit::Copy` that the source walks pushing every
token to both sides unchanged; processing the corresponding all-copy edit
script produces the same strings and zero highlight counts, so the two cases
are embedded uniformly.) -/
def refine (old_text new_text : String) : Except String (List String) :=
  if new_text = "" then .ok (simple_format old_text new_text)
  else if old_text = "" then .ok (simple_format old_text new_text)
  else
    let tokenized_old := tokenize old_text
    let tokenized_new := tokenize new_text
    match processScript initHL (editScript tokenized_old tokenized_new) with
    | .error e => .error e
    | .ok h =>
      let highlight_count := h.old_highlight_count + h.new_highlight_count
      let token_count := tokenized_old.length + tokenized_new.length
      if highlight_count ≤ OK_HIGHLIGHT_COUNT then .ok (assemble old_text new_text h)
      else if 100 * highlight_count / token_count > MAX_HIGHLIGHT_PERCENTAGE then
        .ok (simple_format old_text new_text)
      else .ok (assemble old_text new_text h)

/-- `Refiner::format` (refiner.rs lines 182-196): currently just `refine`. -/
def format (old_text new_text : String) : Except String (List String) :=
  refine old_text new_text

/-- The number of `insert`/`remove` operations in an edit script; this is the
`highlight_count` that `refine`'s suppression heuristic inspects. -/
def countIR : List CEdit → Nat
  | [] => 0
  | .copy _ :: rest => countIR rest
  | .insert _ :: rest => countIR rest + 1
  | .remove _ :: rest => countIR rest + 1
  | .change _ _ :: rest => countIR rest

/-- The condition under which `refine` discards word-level highlighting and
falls back to `simple_format`: more than `OK_HIGHLIGHT_COUNT` highlighted
tokens, and more than `MAX_HIGHLIGHT_PERCENTAGE` percent of all tokens
highlighted. -/
def suppressCond (old_text new_text : String) : Bool :=
  let hc := countIR (editScript (tokenize old_text) (tokenize new_text))
  let tc := (tokenize old_text).length + (tokenize new_text).length
  ¬(hc ≤ OK_HIGHLIGHT_COUNT) && (100 * hc / tc > MAX_HIGHLIGHT_PERCENTAGE)

end Refiner

/-! ## Token collector (src/token_collector.rs) -/

/-- `Style` in token_collector.rs. -/
inductive Style where
  | old
  | oldInverse
  | new
  | newInverse
  | error
deriving DecidableEq, Repr

/-- `Style::is_inverse`. -/
def Style.isInverse : Style → Bool
  | .oldInverse | .newInverse | .error => true
  | _ => false

/-- `Style::inverted`. -/
def Style.inverted : Style → Style
  | .old => .oldInverse
  | .new => .newInverse
  | .oldInverse => .oldInverse
  | .newInverse => .newInverse
  | .error => .error

/-- `Style::color`. -/
def Style.color : Style → String
  | .old => OLD
  | .oldInverse => OLD
  | .new => NEW
  | .newInverse => NEW
  | .error => ERROR

/-- `StyledToken` in token_collector.rs.  The token text is kept as a
character list.  (The source's accessors unwrap the first character and would
panic on an empty token; the tokenizer never produces one.) -/
structure StyledToken where
  token : List Char
  style : Style
deriving DecidableEq, Repr

/-- `StyledToken::is_whitespace`: exactly one character, and it is
whitespace.  (On an empty token the source would panic; we return false.) -/
def StyledToken.is_whitespace (t : StyledToken) : Bool :=
  match t.token with
  | [c] => c.isWhitespace
  | _ => false

/-- `StyledToken::is_word`: two or more characters, or a single alphanumeric
character.  (On an empty token the source would panic; we return false.) -/
def StyledToken.is_word (t : StyledToken) : Bool :=
  match t.token with
  | [] => false
  | [c] => c.isAlphanum
  | _ => true

/-- Recolor a token to `Style::Error`. -/
def errout (t : StyledToken) : StyledToken := { t with style := .error }

/-- Tail phase of `highlight_trailing_whitespace`, walking the reversed row:
recolor tokens to Error until the first non-whitespace token, which stops the
scan. -/
def htwRev : List StyledToken → List StyledToken
  | [] => []
  | t :: rest => if t.is_whitespace then errout t :: htwRev rest else t :: rest

/-- `highlight_trailing_whitespace` (token_collector.rs lines 212-220): walk
the row from the end backwards, recoloring consecutive single-whitespace
tokens to Error, stopping at the first non-whitespace token. -/
def highlight_trailing_whitespace (row : List StyledToken) : List StyledToken :=
  (htwRev row.reverse).reverse

/-- Scan phase of `highlight_nonleading_tab`: after the leading TABs (and the
first non-TAB) have been passed, recolor every TAB token to Error. -/
def hntScan : List StyledToken → List StyledToken :=
  List.map fun t => if t.token = ['\t'] then errout t else t

/-- `highlight_nonleading_tab` (token_collector.rs lines 222-250): skip the
leading run of TAB tokens and the first non-TAB token, then recolor every
later TAB token to Error. -/
def highlight_nonleading_tab : List StyledToken → List StyledToken
  | [] => []
  | t :: rest =>
    if t.token = ['\t'] then t :: highlight_nonleading_tab rest
    else t :: hntScan rest

/-- `FoundState` in `highlight_space_between_words`. -/
inductive FoundState where
  | nothing
  | highlightedWord
  | wordSpace
deriving DecidableEq, Repr

/-- Is the token an inverse-styled word token? -/
def isInvWord (t : StyledToken) : Bool := t.style.isInverse && t.is_word

/-- The state transition of `highlight_space_between_words`' finite-state
scan (token_collector.rs lines 262-294). -/
def fsStep : FoundState → StyledToken → FoundState
  | .nothing, t => if isInvWord t then .highlightedWord else .nothing
  | .highlightedWord, t =>
    if t.is_whitespace then .wordSpace
    else if isInvWord t then .highlightedWord
    else .nothing
  | .wordSpace, t => if isInvWord t then .highlightedWord else .nothing

/-- Promote a token to its inverted style. -/
def promote (t : StyledToken) : StyledToken := { t with style := t.style.inverted }

/-- Loop of `highlight_space_between_words`.  `prev` is the token held by the
source's `previous_token` reference; it is emitted one step later so that the
`WordSpace` → `HighlightedWord` transition can still promote it. -/
def hsbwGo (s : FoundState) (prev : StyledToken) : List StyledToken → List StyledToken
  | [] => [prev]
  | t :: rest =>
    (if s = .wordSpace ∧ isInvWord t then promote prev else prev) ::
      hsbwGo (fsStep s t) t rest

/-- `highlight_space_between_words` (token_collector.rs lines 253-298):
highlight a single space between two highlighted words. -/
def highlight_space_between_words : List StyledToken → List StyledToken
  | [] => []
  | t :: rest => hsbwGo (fsStep .nothing t) t rest

namespace TokenCollector

/-- The emission loop of `TokenCollector::render_row` (token_collector.rs
lines 146-161), carrying the current inverse flag and the currently active
color. -/
def emitGo (is_inverse : Bool) (color : String) : List StyledToken → String
  | [] => ""
  | t :: rest =>
    let s := (if t.style.isInverse ∧ is_inverse = false then INVERSE_VIDEO else "") ++
      (if is_inverse ∧ t.style.isInverse = false then NOT_INVERSE_VIDEO else "")
    let nextColor := if t.style.color ≠ color then t.style.color else color
    let s := s ++ (if t.style.color ≠ color then t.style.color else "")
    s ++ (⟨t.token⟩ : String) ++ emitGo t.style.isInverse nextColor rest

/-- The in-place highlight passes applied by `render_row` before emission:
trailing-whitespace and non-leading-tab recoloring only when the line prefix
style is `New`, then space-between-words promotion on every row. -/
def applyRowPasses (line_pref : StyledToken) (row : List StyledToken) : List StyledToken :=
  let row :=
    if line_pref.style = Style.new then
      highlight_nonleading_tab (highlight_trailing_whitespace row)
    else row
  highlight_space_between_words row

/-- `TokenCollector::render_row` (token_collector.rs lines 120-166): empty
rows render as the empty string; otherwise the highlight passes run, the
prefix establishes the initial inverse flag and color, tokens are emitted
with minimal escapes, and the row is terminated by the full reset. -/
def render_row (line_pref : StyledToken) (row : List StyledToken) : String :=
  if row.isEmpty then ""
  else
    let row := applyRowPasses line_pref row
    (if line_pref.style.isInverse then INVERSE_VIDEO else "") ++
      line_pref.style.color ++ (⟨line_pref.token⟩ : String) ++
      emitGo line_pref.style.isInverse line_pref.style.color row ++ NORMAL

/-- Loop of `TokenCollector::render` (token_collector.rs lines 169-199):
split the pushed tokens into rows at newline tokens and render each row.
(The byte counts the source also accumulates are diagnostics not modelled
here.) -/
def renderGo (line_pref : StyledToken) (current_row : List StyledToken) :
    List StyledToken → String
  | [] => if current_row.isEmpty then "" else render_row line_pref current_row
  | t :: rest =>
    if t.token = ['\n'] then
      render_row line_pref current_row ++ "\n" ++ renderGo line_pref [] rest
    else renderGo line_pref (current_row ++ [t]) rest

/-- `TokenCollector::render` on a collector with the given line prefix and
pushed tokens. -/
def render (line_pref : StyledToken) (tokens : List StyledToken) : String :=
  renderGo line_pref [] tokens

end TokenCollector

/-! ## Line collector (src/line_collector.rs): the consume state machine

Lines and buffers are embedded as character lists.  The ANSI-stripping of
incoming lines (`crate::ansi`, an external collaborator per spec paragraph 1)
is assumed already done: `consume_line` receives the stripped line.  Fatal
panics/assertions are `Except.error`. -/

namespace LineCollector

/-- A work item pushed onto the ordered output queue: either an
already-resolved plain text (`StringFuture::from_string`) or a pending
old/new diff computation (`StringFuture::from_oldnew`). -/
inductive QItem where
  | plainItem (text : List Char)
  | diffItem (old_text new_text : List Char)
deriving DecidableEq, Repr

/-- The mutable state of `LineCollector` (line_collector.rs lines 149-163),
together with the process-wide `NO_EOF_NEWLINE_MARKER_HOLDER` slot and the
queue of enqueued work items (in creation order). -/
structure LCState where
  old_text : List Char
  new_text : List Char
  plain_text : List Char
  diff_seen : Bool
  marker : Option (List Char)
  queue : List QItem
deriving DecidableEq, Repr

/-- The initial `LineCollector` state: empty buffers, no diff seen, no
captured marker, empty queue. -/
def initLC : LCState :=
  { old_text := [], new_text := [], plain_text := [],
    diff_seen := false, marker := none, queue := [] }

/-- `LineCollector::drain_oldnew` (line_collector.rs lines 232-247): if either
of the old/new buffers is non-empty, enqueue them as a diff work item and
clear them. -/
def drain_oldnew (st : LCState) : LCState :=
  if st.old_text.isEmpty ∧ st.new_text.isEmpty then st
  else
    { st with
      queue := st.queue ++ [.diffItem st.old_text st.new_text],
      old_text := [], new_text := [] }

/-- `LineCollector::drain_plain` (line_collector.rs lines 249-260): if the
plain buffer is non-empty, enqueue it as an already-resolved work item and
clear it. -/
def drain_plain (st : LCState) : LCState :=
  if st.plain_text.isEmpty then st
  else
    { st with
      queue := st.queue ++ [.plainItem st.plain_text],
      plain_text := [] }

/-- `LineCollector::consume_plain_line`: flush the old/new block, then append
the line plus a newline to the plain buffer. -/
def consume_plain_line (st : LCState) (line : List Char) : LCState :=
  let st := drain_oldnew st
  { st with plain_text := st.plain_text ++ line ++ ['\n'] }

/-- `LineCollector::consume_plain_linepart`: like `consume_plain_line` but
without a trailing newline. -/
def consume_plain_linepart (st : LCState) (linepart : List Char) : LCState :=
  let st := drain_oldnew st
  { st with plain_text := st.plain_text ++ linepart }

/-- `LineCollector::consume_old_line`: flush the plain block, then append the
line minus its leading `-` plus a newline to the old buffer. -/
def consume_old_line (st : LCState) (line : List Char) : LCState :=
  let st := drain_plain st
  { st with old_text := st.old_text ++ line.tail ++ ['\n'] }

/-- `LineCollector::consume_new_line`: flush the plain block, then append the
line minus its leading `+` plus a newline to the new buffer. -/
def consume_new_line (st : LCState) (line : List Char) : LCState :=
  let st := drain_plain st
  { st with new_text := st.new_text ++ line.tail ++ ['\n'] }

/-- `LineCollector::consume_no_eof_newline_marker` (line_collector.rs lines
286-307): if the new buffer is non-empty, pop its trailing newline (fatal
assertion if the popped character is not a newline); otherwise the same for
the old buffer; otherwise append the colorized marker as a plain line. -/
def consume_no_eof_newline_marker (st : LCState) (no_eof_newline_marker : List Char) :
    Except String LCState :=
  if ¬st.new_text.isEmpty then
    if st.new_text.getLast? = some '\n' then
      .ok { st with new_text := st.new_text.dropLast }
    else .error "assertion failed: new_text does not end in a newline"
  else if ¬st.old_text.isEmpty then
    if st.old_text.getLast? = some '\n' then
      .ok { st with old_text := st.old_text.dropLast }
    else .error "assertion failed: old_text does not end in a newline"
  else
    .ok (consume_plain_line st
      (NO_EOF_NEWLINE_COLOR.data ++ no_eof_newline_marker ++ NORMAL.data))

/-- Modelled from the spec: `crate::commit_line::format_commit_line` is an
external collaborator excluded from the core (spec paragraph 1, "commit-line
formatting").  Its output text is irrelevant to the claims (only the buffer
discipline matters), so it is modelled as the identity on the line. -/
def format_commit_line (line : List Char) (_diff_seen : Bool) : List Char := line

/-- Modelled from the spec: the filename-header rendering used by
`consume_plusminus_header` (`to_highlighted_tokens`, `lowlight_timestamp`,
`unhighlight_git_prefix` and the filename line styles) is code of this
repository that is not under src/ (only its caller line_collector.rs is), and
the spec (paragraph 9) leaves its exact behavior provisional.  Only the plain
text that ends up in the plain block depends on it; the claims under
verification do not.  Old filenames render with a leading `-`, new ones with
a leading `+`. -/
def renderOldFilename (name : List Char) : List Char := '-' :: name

/-- Modelled from the spec: see `renderOldFilename`. -/
def renderNewFilename (name : List Char) : List Char := '+' :: name

/-- `LineCollector::consume_plusminus_header` (line_collector.rs lines
309-375).  A `--- ` line stores the old filename into the old buffer (without
flushing anything); a `+++ ` line not preceded by a `--- ` line is silently
dropped; `/dev/null` on either side renders the header plainly; otherwise
both filenames are rendered and appended to the plain block.  The final
`panic!` arm is unreachable from `consume_line`. -/
def consume_plusminus_header (st : LCState) (line : List Char) : Except String LCState :=
  match line.dropPrefix? "--- ".data with
  | some old_name => .ok { st with old_text := old_name }
  | none =>
    match line.dropPrefix? "+++ ".data with
    | none => .error "Got a plusminus header that does not start with --- or +++"
    | some new_name =>
      if st.old_text.isEmpty then .ok st
      else
        let st := { st with new_text := new_name }
        if st.old_text = "/dev/null".data then
          let new_name := st.new_text
          let st := { st with old_text := [], new_text := [] }
          let st := consume_plain_linepart st FAINT.data
          let st := consume_plain_linepart st "--- /dev/null".data
          let st := consume_plain_line st NORMAL.data
          let st := consume_plain_linepart st BOLD.data
          let st := consume_plain_linepart st "+++ ".data
          let st := consume_plain_linepart st new_name
          .ok (consume_plain_line st NORMAL.data)
        else if st.new_text = "/dev/null".data then
          let old_name := st.old_text
          let st := { st with old_text := [], new_text := [] }
          let st := consume_plain_linepart st BOLD.data
          let st := consume_plain_linepart st "--- ".data
          let st := consume_plain_linepart st old_name
          let st := consume_plain_line st NORMAL.data
          let st := consume_plain_linepart st FAINT.data
          let st := consume_plain_linepart st "+++ /dev/null".data
          .ok (consume_plain_line st NORMAL.data)
        else
          let old_name := st.old_text
          let new_name := st.new_text
          let st := { st with old_text := [], new_text := [] }
          let st := consume_plain_line st (renderOldFilename old_name)
          .ok (consume_plain_line st (renderNewFilename new_name))

/-- First index at which the pattern occurs in the list, if any (Rust's
`str::find` for a literal pattern). -/
def findSeq (pat : List Char) : List Char → Option Nat
  | [] => if pat.isEmpty then some 0 else none
  | c :: rest =>
    if pat.isPrefixOf (c :: rest) then some 0
    else (findSeq pat rest).map (· + 1)

/-- `LineCollector::consume_hunk_header` (line_collector.rs lines 377-391):
cyan, then if the line contains a second `" @@ "` marker the part up to and
including it renders faint and the rest (the function name) bold. -/
def consume_hunk_header (st : LCState) (line : List Char) : LCState :=
  let st := consume_plain_linepart st "\x1b[36m".data
  let st :=
    match findSeq " @@ ".data line with
    | some second_atat_index =>
      let st := consume_plain_linepart st FAINT.data
      let st := consume_plain_linepart st (line.take (second_atat_index + 4))
      let st := consume_plain_linepart st BOLD.data
      consume_plain_linepart st (line.drop (second_atat_index + 4))
    | none => consume_plain_linepart st line
  consume_plain_line st NORMAL.data

/-- The `STATIC_HEADER_PREFIXES` table and `get_fixed_highlight`
(line_collector.rs lines 20-54). -/
def get_fixed_highlight (line : List Char) : Option (List Char) :=
  if "diff ".data.isPrefixOf line then some FAINT.data
  else if "index ".data.isPrefixOf line then some FAINT.data
  else if "Binary files ".data.isPrefixOf line then some BOLD.data
  else if "copy from ".data.isPrefixOf line then some FAINT.data
  else if "copy to ".data.isPrefixOf line then some BOLD.data
  else if "rename from ".data.isPrefixOf line then some FAINT.data
  else if "rename to ".data.isPrefixOf line then some BOLD.data
  else if "similarity index ".data.isPrefixOf line then some FAINT.data
  else if "new file mode ".data.isPrefixOf line then some FAINT.data
  else if "deleted file mode ".data.isPrefixOf line then some BOLD.data
  else none

/-- `LineCollector::consume_line` (line_collector.rs lines 394-465) on an
already-ANSI-stripped line without its trailing newline.  The leading-`\`
branch stores the line into the process-wide marker slot *before* consuming
it (the write-before-use ordering the source commentary insists on), then
delegates to `consume_no_eof_newline_marker`. -/
def consume_classified (st : LCState) (line : List Char) : Except String LCState :=
  match get_fixed_highlight line with
  | some fixed_highlight =>
    let st := consume_plain_linepart st fixed_highlight
    let st := consume_plain_linepart st line
    .ok (consume_plain_line st NORMAL.data)
  | none =>
    if "commit".data.isPrefixOf line then
      .ok (consume_plain_line st (format_commit_line line st.diff_seen))
    else if "--- ".data.isPrefixOf line ∨ "+++ ".data.isPrefixOf line then
      consume_plusminus_header st line
    else if "@@ ".data.isPrefixOf line then
      .ok (consume_hunk_header st line)
    else if line.isEmpty then
      .ok (consume_plain_line st [])
    else if line.head? = some '-' then
      .ok (consume_old_line st line)
    else if line.head? = some '+' then
      .ok (consume_new_line st line)
    else if line.head? = some '\\' then
      let st := { st with marker := some line }
      consume_no_eof_newline_marker st line
    else
      .ok (consume_plain_line st line)

/-- `LineCollector::consume_line`: record whether a `diff` line has been
seen, then dispatch on the line's classification (`consume_classified`). -/
def consume_line (st : LCState) (line : List Char) : Except String LCState :=
  let st := if "diff".data.isPrefixOf line then { st with diff_seen := true } else st
  consume_classified st line

/-- The exclusivity invariant of claim C3: at most one of the old/new block
and the plain block is non-empty. -/
def exclusive (st : LCState) : Bool :=
  st.plain_text.isEmpty || (st.old_text.isEmpty && st.new_text.isEmpty)

end LineCollector

/-! ## The ordered output queue (line_collector.rs: `StringFuture`, the
printer thread of `LineCollector::new`, lines 196-218)

WorkItems are enqueued in creation order.  Pending diff items are computed by
the worker pool in an arbitrary order (`SchedEvent.finish`); the single
printer thread pops items strictly in FIFO order and blocks on each pending
item until its result is available (`StringFuture::get`, lines 125-134).  We
model this as a transition system whose schedules interleave arbitrary worker
completions with printer steps; a printer step is enabled only when the head
item is ready (this is the blocking `get`). -/

namespace OutputQueue

open LineCollector

/-- The result a background worker computes for a diff work item
(line_collector.rs lines 103-112): each line of `refiner::format` followed by
a newline, concatenated.  A pure function of the texts, so independent of
scheduling.  (The error case is the worker panicking; it is proved
unreachable.) -/
def workItemValue : QItem → List Char
  | .plainItem text => text
  | .diffItem old_text new_text =>
    match Refiner.format ⟨old_text⟩ ⟨new_text⟩ with
    | .ok lines => (lines.map fun l => l ++ "\n").foldl (fun acc s => acc ++ s.data) []
    | .error _ => []

/-- Is the item at the head ready for the printer: resolved items always are,
pending diff items only once their background computation finished. -/
def itemReady (it : QItem) (done : Bool) : Bool :=
  match it with
  | .plainItem _ => true
  | .diffItem _ _ => done

/-- The printer-side state: which pending computations have finished, how
many items have been printed, and the bytes written so far. -/
structure PrinterState where
  done : List Bool
  printed : Nat
  output : List Char
deriving DecidableEq, Repr

/-- A schedule event: some worker finishes the computation of queue item `i`,
or the printer thread prints the next item (blocking `get`, so only enabled
when that item is ready). -/
inductive SchedEvent where
  | finish (i : Nat)
  | printNext
deriving DecidableEq, Repr

/-- One transition.  `none` means the event is not enabled in this state. -/
def qstep (items : List QItem) (st : PrinterState) : SchedEvent → Option PrinterState
  | .finish i =>
    match items.get? i with
    | some (.diffItem _ _) =>
      if st.done.getD i false then none
      else some { st with done := st.done.set i true }
    | _ => none
  | .printNext =>
    match items.get? st.printed with
    | some it =>
      if itemReady it (st.done.getD st.printed false) then
        some { st with
               printed := st.printed + 1,
               output := st.output ++ workItemValue it }
      else none
    | none => none

/-- Run a whole schedule from a state; `none` if any event is not enabled. -/
def runSched (items : List QItem) (st : PrinterState) : List SchedEvent → Option PrinterState
  | [] => some st
  | e :: rest => match qstep items st e with
    | some st' => runSched items st' rest
    | none => none

/-- The initial printer state: nothing computed, nothing printed. -/
def initPrinter (items : List QItem) : PrinterState :=
  { done := List.replicate items.length false, printed := 0, output := [] }

/-- The output the design promises: the values of the items in creation
(queue) order. -/
def orderedOutput (items : List QItem) : List Char :=
  (items.map workItemValue).flatten

/-- The FIFO invariant: the bytes written so far are exactly the values of
the first `printed` items, in queue order. -/
def fifoGood (items : List QItem) (st : PrinterState) : Prop :=
  st.output = ((items.take st.printed).map workItemValue).flatten

theorem qstep_preserves_fifoGood {items : List QItem} {st st' : PrinterState}
    {e : SchedEvent} (hg : fifoGood items st) (hs : qstep items st e = some st') :
    fifoGood items st' := by
  cases e with
  | finish i =>
    simp only [qstep] at hs
    rcases hit : items.get? i with _ | it
    · rw [hit] at hs; simp at hs
    · rw [hit] at hs
      cases it with
      | plainItem t => simp at hs
      | diffItem o n =>
        simp only at hs
        split at hs
        · simp at hs
        · cases hs
          exact hg
  | printNext =>
    simp only [qstep] at hs
    rcases hit : items.get? st.printed with _ | it
    · rw [hit] at hs; simp at hs
    · rw [hit] at hs
      simp only at hs
      split at hs
      · cases hs
        unfold fifoGood at hg ⊢
        simp only
        rw [List.take_succ]
        rw [List.get?_eq_getElem?] at hit
        rw [hit]
        simp [hg]
      · simp at hs

theorem runSched_preserves_fifoGood {items : List QItem} :
    ∀ {evs : List SchedEvent} {st st' : PrinterState},
    fifoGood items st → runSched items st evs = some st' → fifoGood items st' := by
  intro evs
  induction evs with
  | nil => intro st st' hg hr; cases hr; exact hg
  | cons e rest ih =>
    intro st st' hg hr
    unfold runSched at hr
    rcases hq : qstep items st e with _ | st1
    · rw [hq] at hr; simp at hr
    · rw [hq] at hr
      exact ih (qstep_preserves_fifoGood hg hq) hr

end OutputQueue

namespace OutputQueue

open LineCollector

/-- Demo queue for the C1 witness: two pending diff items whose background
computations can finish in either order. -/
def demoItems : List QItem :=
  [.diffItem "a\n".data "b\n".data, .diffItem "c\n".data "d\n".data]

/-- Demo schedule for the C1 witness: the workers finish in queue order, then
the printer prints both items. -/
def demoSched : List SchedEvent := [.finish 0, .finish 1, .printNext, .printNext]

/-- A second demo schedule: the workers finish in the opposite order. -/
def demoSched2 : List SchedEvent := [.finish 1, .finish 0, .printNext, .printNext]

end OutputQueue

/-- C1: for every queue of WorkItems (in creation order, i.e. the order input
lines were consumed) and every admissible schedule interleaving background
diff completions with printer steps, the bytes the dedicated output thread
has written are exactly the values of the first `printed` items in queue
order; in particular, once every item is printed the output equals
`orderedOutput items` — the same for every schedule, independent of the order
in which diff computations finish. -/
theorem output_order_independent_of_schedule
    (items : List LineCollector.QItem) (evs : List OutputQueue.SchedEvent)
    (st : OutputQueue.PrinterState)
    (hrun : OutputQueue.runSched items (OutputQueue.initPrinter items) evs = some st) :
    st.output = ((items.take st.printed).map OutputQueue.workItemValue).flatten ∧
      (st.printed = items.length → st.output = OutputQueue.orderedOutput items) := by
  have hinit : OutputQueue.fifoGood items (OutputQueue.initPrinter items) := by
    unfold OutputQueue.fifoGood OutputQueue.initPrinter
    simp
  have hg := OutputQueue.runSched_preserves_fifoGood hinit hrun
  refine ⟨hg, fun hall => ?_⟩
  rw [hg, hall, List.take_length]
  rfl

/-- Witness for C1: the two-item demo queue printed under two different
schedules (worker-first and printer-first interleavings) yields in both cases
exactly the queue-order output. -/
theorem output_order_independent_of_schedule_witness :
    (OutputQueue.runSched OutputQueue.demoItems
        (OutputQueue.initPrinter OutputQueue.demoItems) OutputQueue.demoSched).map
        OutputQueue.PrinterState.output =
      some (OutputQueue.orderedOutput OutputQueue.demoItems) ∧
    (OutputQueue.runSched OutputQueue.demoItems
        (OutputQueue.initPrinter OutputQueue.demoItems) OutputQueue.demoSched2).map
        OutputQueue.PrinterState.output =
      some (OutputQueue.orderedOutput OutputQueue.demoItems) := by
  constructor
  · have hrun : OutputQueue.runSched OutputQueue.demoItems
        (OutputQueue.initPrinter OutputQueue.demoItems) OutputQueue.demoSched =
        some { done := [true, true], printed := 2,
               output := OutputQueue.orderedOutput OutputQueue.demoItems } := by decide
    have h := output_order_independent_of_schedule OutputQueue.demoItems
      OutputQueue.demoSched _ hrun
    rw [hrun]
    exact congrArg some (h.2 (by decide))
  · have hrun : OutputQueue.runSched OutputQueue.demoItems
        (OutputQueue.initPrinter OutputQueue.demoItems) OutputQueue.demoSched2 =
        some { done := [true, true], printed := 2,
               output := OutputQueue.orderedOutput OutputQueue.demoItems } := by decide
    have h := output_order_independent_of_schedule OutputQueue.demoItems
      OutputQueue.demoSched2 _ hrun
    rw [hrun]
    exact congrArg some (h.2 (by decide))

/-! ## C10: the edit script is Copy/Insert/Remove only -/

/-- Is an edit the nested-change operation? -/
def CEdit.isChange : CEdit → Bool
  | .change _ _ => true
  | _ => false

theorem editScriptF_no_change (f : Nat) :
    ∀ (xs ys : List String), ∀ e ∈ editScriptF f xs ys, e.isChange = false := by
  induction f with
  | zero => intro xs ys e he; simp [editScriptF] at he
  | succ f ih =>
    intro xs ys e he
    match xs, ys with
    | [], [] => simp [editScriptF] at he
    | [], y :: ys =>
      simp only [editScriptF, List.mem_cons] at he
      rcases he with rfl | he
      · rfl
      · exact ih [] ys e he
    | x :: xs, [] =>
      simp only [editScriptF, List.mem_cons] at he
      rcases he with rfl | he
      · rfl
      · exact ih xs [] e he
    | x :: xs, y :: ys =>
      simp only [editScriptF] at he
      split at he
      · rcases List.mem_cons.mp he with rfl | he
        · rfl
        · exact ih xs ys e he
      · split at he
        · rcases List.mem_cons.mp he with rfl | he
          · rfl
          · exact ih xs (y :: ys) e he
        · rcases List.mem_cons.mp he with rfl | he
          · rfl
          · exact ih (x :: xs) ys e he

/-- The edit script never contains a nested change operation. -/
theorem editScript_no_change (xs ys : List String) :
    ∀ e ∈ editScript xs ys, e.isChange = false :=
  editScriptF_no_change _ xs ys

/-- Processing a change-free script never reaches the panic arm. -/
theorem processScript_ok_of_no_change :
    ∀ (script : List CEdit) (h : Refiner.HLState),
    (∀ e ∈ script, e.isChange = false) →
    ∃ h', Refiner.processScript h script = .ok h' := by
  intro script
  induction script with
  | nil => intro h _; exact ⟨h, rfl⟩
  | cons e rest ih =>
    intro h hall
    have hrest : ∀ e ∈ rest, e.isChange = false := fun x hx => hall x (List.mem_cons_of_mem _ hx)
    match e with
    | .copy t =>
      rcases ih _ hrest with ⟨h', hh'⟩
      refine ⟨h', ?_⟩
      simpa [Refiner.processScript, Refiner.processEdit] using hh'
    | .insert t =>
      rcases ih _ hrest with ⟨h', hh'⟩
      refine ⟨h', ?_⟩
      simpa [Refiner.processScript, Refiner.processEdit] using hh'
    | .remove t =>
      rcases ih _ hrest with ⟨h', hh'⟩
      refine ⟨h', ?_⟩
      simpa [Refiner.processScript, Refiner.processEdit] using hh'
    | .change a b =>
      have := hall _ (List.mem_cons_self _ rest)
      simp [CEdit.isChange] at this

/-- C10: for every pair of non-empty old and new texts, the token-level edit
script consumed by `refine` consists solely of Copy, Insert and Remove
operations over whole tokens, and the nested Change branch — the source's
unconditional `panic!("Not implemented, help!")`, embedded as the `.error`
result — is unreachable: `refine` always returns `.ok`. -/
theorem refine_change_branch_unreachable (old_text new_text : String)
    (hold : old_text ≠ "") (hnew : new_text ≠ "") :
    (∀ e ∈ editScript (tokenize old_text) (tokenize new_text), e.isChange = false) ∧
      (Refiner.refine old_text new_text).isOk := by
  refine ⟨editScript_no_change _ _, ?_⟩
  unfold Refiner.refine
  rw [if_neg hnew, if_neg hold]
  rcases processScript_ok_of_no_change
      (editScript (tokenize old_text) (tokenize new_text)) Refiner.initHL
      (editScript_no_change _ _) with ⟨h', hh'⟩
  simp only [hh']
  split
  · rfl
  · split
    · rfl
    · rfl

/-- Witness for C10 at the concrete pair `("a", "b")`. -/
theorem refine_change_branch_unreachable_witness :
    ("a" ≠ "" ∧ "b" ≠ "") ∧
      ((∀ e ∈ editScript (tokenize "a") (tokenize "b"), e.isChange = false) ∧
        (Refiner.refine "a" "b").isOk) :=
  ⟨⟨by decide, by decide⟩,
    refine_change_branch_unreachable "a" "b" (by decide) (by decide)⟩

/-! ## No-inverse-video lemmas -/

theorem hasInv_cons_ne {c : Char} (r : List Char) (h : c ≠ escChar) :
    hasInv (c :: r) = hasInv r := by
  simp [hasInv, h]

theorem hasInv_esc_cons (r : List Char) (h : startsInvTail r = false) :
    hasInv (escChar :: r) = hasInv r := by
  simp [hasInv, h]

theorem hasInv_append_of_no_esc :
    ∀ (l r : List Char), (∀ c ∈ l, c ≠ escChar) → hasInv (l ++ r) = hasInv r := by
  intro l
  induction l with
  | nil => intro r _; rfl
  | cons c cs ih =>
    intro r hl
    rw [List.cons_append, hasInv_cons_ne _ (hl c (List.mem_cons_self c cs))]
    exact ih r fun x hx => hl x (List.mem_cons_of_mem _ hx)

theorem hasInv_OLD_append (r : List Char) : hasInv (OLD.data ++ r) = hasInv r := by
  show hasInv (escChar :: '[' :: '3' :: '1' :: 'm' :: r) = hasInv r
  rw [hasInv_esc_cons _ (by rfl)]
  rw [hasInv_cons_ne _ (by decide), hasInv_cons_ne _ (by decide),
    hasInv_cons_ne _ (by decide), hasInv_cons_ne _ (by decide)]

theorem hasInv_NEW_append (r : List Char) : hasInv (NEW.data ++ r) = hasInv r := by
  show hasInv (escChar :: '[' :: '3' :: '2' :: 'm' :: r) = hasInv r
  rw [hasInv_esc_cons _ (by rfl)]
  rw [hasInv_cons_ne _ (by decide), hasInv_cons_ne _ (by decide),
    hasInv_cons_ne _ (by decide), hasInv_cons_ne _ (by decide)]

theorem hasInv_mkOldLine (l : String) (hl : ∀ c ∈ l.data, c ≠ escChar) :
    hasInv (Refiner.mkOldLine l).data = false := by
  unfold Refiner.mkOldLine
  rw [String.data_append, String.data_append, String.data_append,
    List.append_assoc, List.append_assoc]
  rw [hasInv_OLD_append]
  show hasInv ('-' :: (l.data ++ NORMAL.data)) = false
  rw [hasInv_cons_ne _ (by decide), hasInv_append_of_no_esc _ _ hl]
  decide

theorem hasInv_mkNewLine (l : String) (hl : ∀ c ∈ l.data, c ≠ escChar) :
    hasInv (Refiner.mkNewLine l).data = false := by
  unfold Refiner.mkNewLine
  rw [String.data_append, String.data_append, String.data_append,
    List.append_assoc, List.append_assoc]
  rw [hasInv_NEW_append]
  show hasInv ('+' :: (l.data ++ NORMAL.data)) = false
  rw [hasInv_cons_ne _ (by decide), hasInv_append_of_no_esc _ _ hl]
  decide

theorem hasInv_noEofLine : hasInv Refiner.noEofLine.data = false := by decide

/-! ### Characters of `rustLines` come from the input -/

theorem splitNl_ne_nil : ∀ (l : List Char), splitNl l ≠ [] := by
  intro l
  cases l with
  | nil => simp [splitNl]
  | cons c rest =>
    simp only [splitNl]
    split
    · simp
    · simp

theorem splitNl_mem_subset :
    ∀ (l : List Char) (seg : List Char), seg ∈ splitNl l → ∀ c ∈ seg, c ∈ l := by
  intro l
  induction l with
  | nil =>
    intro seg hseg c hc
    simp [splitNl] at hseg
    subst hseg
    simp at hc
  | cons a rest ih =>
    intro seg hseg c hc
    simp only [splitNl] at hseg
    split at hseg
    · rcases List.mem_cons.mp hseg with rfl | hseg
      · simp at hc
      · exact List.mem_cons_of_mem _ (ih seg hseg c hc)
    · rcases List.mem_cons.mp hseg with rfl | hseg
      · rcases List.mem_cons.mp hc with rfl | hc
        · exact List.mem_cons_self _ _
        · rcases hrest : splitNl rest with _ | ⟨s0, ss⟩
          · exact absurd hrest (splitNl_ne_nil rest)
          · rw [hrest] at hc
            simp only [List.headD_cons] at hc
            exact List.mem_cons_of_mem _
              (ih s0 (hrest ▸ List.mem_cons_self s0 ss) c hc)
      · rcases hrest : splitNl rest with _ | ⟨s0, ss⟩
        · exact absurd hrest (splitNl_ne_nil rest)
        · rw [hrest] at hseg
          simp only [List.tailD_cons] at hseg
          exact List.mem_cons_of_mem _
            (ih seg (hrest ▸ List.mem_cons_of_mem s0 hseg) c hc)

theorem stripCr_subset (l : List Char) : ∀ c ∈ stripCr l, c ∈ l := by
  intro c hc
  unfold stripCr at hc
  split at hc
  · exact List.dropLast_subset l hc
  · exact hc

theorem fixSegs_mem_subset :
    ∀ (segs : List (List Char)) (seg : List Char), seg ∈ fixSegs segs →
      ∃ seg0 ∈ segs, ∀ c ∈ seg, c ∈ seg0 := by
  intro segs
  induction segs with
  | nil => intro seg hseg; simp [fixSegs] at hseg
  | cons s rest ih =>
    intro seg hseg
    match rest with
    | [] =>
      simp only [fixSegs] at hseg
      split at hseg
      · simp at hseg
      · rcases List.mem_singleton.mp hseg with rfl
        exact ⟨seg, List.mem_cons_self _ _, fun c hc => hc⟩
    | r :: rs =>
      simp only [fixSegs] at hseg
      rcases List.mem_cons.mp hseg with rfl | hseg
      · exact ⟨s, List.mem_cons_self _ _, stripCr_subset s⟩
      · rcases ih seg hseg with ⟨seg0, hseg0, hsub⟩
        exact ⟨seg0, List.mem_cons_of_mem _ hseg0, hsub⟩

theorem rustLines_chars (s : String) (hs : noEsc s = true) :
    ∀ l ∈ rustLines s, ∀ c ∈ l.data, c ≠ escChar := by
  intro l hl c hc
  unfold rustLines at hl
  rcases List.mem_map.mp hl with ⟨seg, hseg, rfl⟩
  rcases fixSegs_mem_subset _ seg hseg with ⟨seg0, hseg0, hsub⟩
  have hcs : c ∈ s.data := splitNl_mem_subset s.data seg0 hseg0 c (hsub c hc)
  have := List.all_eq_true.mp hs c hcs
  simpa using this

/-- No line produced by `simple_format` on escape-free inputs contains the
inverse-video escape sequence. -/
theorem simple_format_no_inverse (old_text new_text : String)
    (hold : noEsc old_text = true) (hnew : noEsc new_text = true) :
    ∀ l ∈ Refiner.simple_format old_text new_text, hasInv l.data = false := by
  intro l hl
  unfold Refiner.simple_format at hl
  rcases List.mem_append.mp hl with h | h
  · rcases List.mem_append.mp h with h | h
    · rcases List.mem_map.mp h with ⟨l0, hl0, rfl⟩
      exact hasInv_mkOldLine l0 (rustLines_chars old_text hold l0 hl0)
    · split at h
      · rcases List.mem_singleton.mp h with rfl
        exact hasInv_noEofLine
      · simp at h
  · rcases List.mem_append.mp h with h | h
    · rcases List.mem_map.mp h with ⟨l0, hl0, rfl⟩
      exact hasInv_mkNewLine l0 (rustLines_chars new_text hnew l0 hl0)
    · split at h
      · rcases List.mem_singleton.mp h with rfl
        exact hasInv_noEofLine
      · simp at h

/-! ## C4: refine with one empty side -/

namespace Refiner

/-- The simple rendering of the old side alone, written from the spec's words
(spec paragraph 4.2, first bullet): each line of the old text rendered with
its flat base color and no intra-line highlighting, plus the dim synthesized
no-EOF-newline line when the text does not end in a newline. -/
def oldSideOnly (old_text : String) : List String :=
  (rustLines old_text).map mkOldLine ++
    (if old_text ≠ "" ∧ endsNl old_text = false then [noEofLine] else [])

/-- The simple rendering of the new side alone, written from the spec's
words; see `oldSideOnly`. -/
def newSideOnly (new_text : String) : List String :=
  (rustLines new_text).map mkNewLine ++
    (if new_text ≠ "" ∧ endsNl new_text = false then [noEofLine] else [])

end Refiner

/-- C4: for every escape-free old text, `refine(old, "")` equals the simple
rendering of the old side alone, and symmetrically `refine("", new)` equals
the simple rendering of the new side alone; in both cases no produced line
contains the inverse-video escape sequence.  (Escape-freedom is the core's
input contract, spec paragraph 6: lines are stripped before reaching it.) -/
theorem refine_empty_side_is_simple (old_text new_text : String)
    (hold : noEsc old_text = true) (hnew : noEsc new_text = true) :
    Refiner.refine old_text "" = .ok (Refiner.oldSideOnly old_text) ∧
      Refiner.refine "" new_text = .ok (Refiner.newSideOnly new_text) ∧
      (∀ l ∈ Refiner.oldSideOnly old_text, hasInv l.data = false) ∧
      (∀ l ∈ Refiner.newSideOnly new_text, hasInv l.data = false) := by
  have hofmt : Refiner.simple_format old_text "" = Refiner.oldSideOnly old_text := by
    unfold Refiner.simple_format Refiner.oldSideOnly
    simp [rustLines, splitNl, fixSegs]
  have hnfmt : Refiner.simple_format "" new_text = Refiner.newSideOnly new_text := by
    unfold Refiner.simple_format Refiner.newSideOnly
    simp [rustLines, splitNl, fixSegs]
  refine ⟨?_, ?_, ?_, ?_⟩
  · unfold Refiner.refine
    rw [if_pos rfl, hofmt]
  · unfold Refiner.refine
    by_cases hne : new_text = ""
    · subst hne
      rw [if_pos rfl, hnfmt]
    · rw [if_neg hne, if_pos rfl, hnfmt]
  · intro l hl
    exact simple_format_no_inverse old_text "" hold (by decide) l (hofmt ▸ hl)
  · intro l hl
    exact simple_format_no_inverse "" new_text (by decide) hnew l (hnfmt ▸ hl)

/-- Witness for C4 at `old = "a"`, `new = "b\n"`. -/
theorem refine_empty_side_is_simple_witness :
    (noEsc "a" = true ∧ noEsc "b\n" = true) ∧
      (Refiner.refine "a" "" = .ok (Refiner.oldSideOnly "a") ∧
        Refiner.refine "" "b\n" = .ok (Refiner.newSideOnly "b\n") ∧
        (∀ l ∈ Refiner.oldSideOnly "a", hasInv l.data = false) ∧
        (∀ l ∈ Refiner.newSideOnly "b\n", hasInv l.data = false)) :=
  ⟨⟨by decide, by decide⟩,
    refine_empty_side_is_simple "a" "b\n" (by decide) (by decide)⟩

/-! ## C2: the suppression heuristic -/

theorem processScript_counts :
    ∀ (script : List CEdit) (h h' : Refiner.HLState),
    Refiner.processScript h script = .ok h' →
    h'.old_highlight_count + h'.new_highlight_count =
      h.old_highlight_count + h.new_highlight_count + Refiner.countIR script := by
  intro script
  induction script with
  | nil =>
    intro h h' hp
    cases hp
    simp [Refiner.countIR]
  | cons e rest ih =>
    intro h h' hp
    match e with
    | .copy t =>
      simp only [Refiner.processScript, Refiner.processEdit, Except.bind] at hp
      have := ih _ _ hp
      simpa [Refiner.countIR] using this
    | .insert t =>
      simp only [Refiner.processScript, Refiner.processEdit, Except.bind] at hp
      have := ih _ _ hp
      simp only [Refiner.countIR]
      simp at this
      omega
    | .remove t =>
      simp only [Refiner.processScript, Refiner.processEdit, Except.bind] at hp
      have := ih _ _ hp
      simp only [Refiner.countIR]
      simp at this
      omega
    | .change a b =>
      simp [Refiner.processScript, Refiner.processEdit, Bind.bind, Except.bind] at hp

/-- C2 counterexample: with `old = "x\n"`, `new = "x\n\n\n"` the edit script
is `Copy "x", Copy "\n", Insert "\n", Insert "\n"`, so the single maximal
insert run consists of two newline tokens: it touches at least two newline
boundaries (two internal newlines, plus a preceding newline token and
end-of-text).  The claim then demands that the run render with base,
non-inverse style — zero inverse-video escapes in its span — yet `refine`
renders both inserted newlines with inverse-video escapes (the highlighted
`⏎` glyphs below): the total highlight count 2 is at most
`OK_HIGHLIGHT_COUNT`, so the source's percentage heuristic keeps the
highlighting regardless of how many newlines the run touches. -/
theorem newline_run_suppression_counterexample :
    editScript (tokenize "x\n") (tokenize "x\n\n\n") =
      [.copy "x", .copy "\n", .insert "\n", .insert "\n"] ∧
    Refiner.refine "x\n" "x\n\n\n" =
      .ok [OLD ++ "-x" ++ NORMAL,
           NEW ++ "+x" ++ NORMAL,
           NEW ++ "+" ++ INVERSE_VIDEO ++ "⏎" ++ NORMAL,
           NEW ++ "+" ++ INVERSE_VIDEO ++ "⏎" ++ NORMAL] ∧
    hasInv (NEW ++ "+" ++ INVERSE_VIDEO ++ "⏎" ++ NORMAL).data = true := by
  refine ⟨by decide, ?_, by decide⟩
  rfl

/-- C2 as amended: in `refine` on non-empty, escape-free old and new texts,
suppression of word-level highlighting is global rather than per run — the
number of newline boundaries an individual insert or remove run touches plays
no role.  Whenever the total number of highlighted (inserted or removed)
tokens exceeds `OK_HIGHLIGHT_COUNT` and exceeds `MAX_HIGHLIGHT_PERCENTAGE`
percent of the combined token count, `refine` discards the highlighted
rendering of the whole block and falls back to `simple_format`, whose lines
contain zero inverse-video escapes. -/
theorem refine_suppression_is_global (old_text new_text : String)
    (hold : old_text ≠ "") (hnew : new_text ≠ "")
    (holdesc : noEsc old_text = true) (hnewesc : noEsc new_text = true)
    (hsup : Refiner.suppressCond old_text new_text = true) :
    Refiner.refine old_text new_text = .ok (Refiner.simple_format old_text new_text) ∧
      ∀ l ∈ Refiner.simple_format old_text new_text, hasInv l.data = false := by
  refine ⟨?_, simple_format_no_inverse _ _ holdesc hnewesc⟩
  unfold Refiner.refine
  rw [if_neg hnew, if_neg hold]
  rcases processScript_ok_of_no_change
      (editScript (tokenize old_text) (tokenize new_text)) Refiner.initHL
      (editScript_no_change _ _) with ⟨h', hh'⟩
  have hcounts := processScript_counts _ _ _ hh'
  unfold Refiner.initHL at hcounts
  simp only at hcounts
  unfold Refiner.suppressCond at hsup
  simp only [Bool.and_eq_true, decide_eq_true_eq, Nat.not_le] at hsup
  simp only [hh']
  rw [hcounts]
  simp only [Nat.zero_add]
  rw [if_neg (by omega), if_pos (by omega)]

/-- Witness for C2 as amended, at `old = "a\n"`, `new = "b c d\n"`: one
removed token and five inserted tokens out of eight total tokens, so the
75 percent highlight share triggers global suppression. -/
theorem refine_suppression_is_global_witness :
    ("a\n" ≠ "" ∧ "b c d\n" ≠ "" ∧ noEsc "a\n" = true ∧ noEsc "b c d\n" = true ∧
        Refiner.suppressCond "a\n" "b c d\n" = true) ∧
      (Refiner.refine "a\n" "b c d\n" =
          .ok (Refiner.simple_format "a\n" "b c d\n") ∧
        ∀ l ∈ Refiner.simple_format "a\n" "b c d\n", hasInv l.data = false) :=
  ⟨⟨by decide, by decide, by decide, by decide, by decide⟩,
    refine_suppression_is_global "a\n" "b c d\n" (by decide) (by decide)
      (by decide) (by decide) (by decide)⟩

/-! ## C5: trailing whitespace on the removed side -/

/-- C5: evaluating the code at the failing input `old = "x \n"`,
`new = "x\n"` (the first case of refiner.rs's own
`test_trailing_whitespace`).  `Refiner::format` renders the removed trailing
space inverse-video on the *old* side and leaves the new side plain, whereas
the claim — and the source's own test — demand
`[OLD ++ "-x" ++ NORMAL, NEW ++ "+x" ++ ERROR ++ INVERSE_VIDEO ++ " " ++ NORMAL]`,
i.e. an Error-styled trailing space on the added side.  (The
`TokenCollector` path that implements the Error recoloring is never invoked
by `Refiner::format`, and `highlight_trailing_whitespace` only runs on rows
whose line prefix style is `New`.) -/
theorem trailing_whitespace_failing_input :
    Refiner.format "x \n" "x\n" =
      .ok [OLD ++ "-x" ++ INVERSE_VIDEO ++ " " ++ NOT_INVERSE_VIDEO ++ NORMAL,
           NEW ++ "+x" ++ NORMAL] ∧
    [OLD ++ "-x" ++ INVERSE_VIDEO ++ " " ++ NOT_INVERSE_VIDEO ++ NORMAL,
        NEW ++ "+x" ++ NORMAL] ≠
      [OLD ++ "-x" ++ NORMAL,
       NEW ++ "+x" ++ ERROR ++ INVERSE_VIDEO ++ " " ++ NORMAL] :=
  ⟨rfl, by decide⟩

/-! ## C7: the synthesized no-EOF-newline line -/

/-- C7: evaluating the code at the failing input `old = "x"`, `new = ""`.
The appended dim line always carries the built-in
`NO_EOF_NEWLINE_MARKER` constant: `Refiner::simple_format` and
`Refiner::refine` never read the process-wide
`NO_EOF_NEWLINE_MARKER_HOLDER` that `LineCollector::consume_line` fills in
(and whose write-before-use commentary promises a reader on this path), so a
captured marker — e.g. a non-English wording stored by a preceding
`\`-prefixed input line — is never emitted.  The second conjunct shows the
marker slot being filled by the pipeline; the refiner output is independent
of it. -/
theorem no_eof_marker_always_default :
    Refiner.refine "x" "" =
      .ok [OLD ++ "-x" ++ NORMAL,
           NO_EOF_NEWLINE_COLOR ++ NO_EOF_NEWLINE_MARKER ++ NORMAL] ∧
    (LineCollector.consume_line LineCollector.initLC
        "\\ Pas de fin de ligne".data).map LineCollector.LCState.marker =
      .ok (some "\\ Pas de fin de ligne".data) :=
  ⟨rfl, rfl⟩

/-! ## C6: the no-newline-at-EOF marker branch of consume_line -/

/-- C6: consuming any line with a leading backslash first stores that line's
exact text into the process-wide marker slot, and then: if the new buffer is
non-empty, its trailing newline is removed (fatal assertion — `.error` —
when its last character is not a newline); otherwise, if the old buffer is
non-empty, its trailing newline is removed likewise; otherwise the marker
line itself is appended to the plain block as a dim
(`NO_EOF_NEWLINE_COLOR`-styled) plain line.  In the source the slot write
precedes the consume call in program order (the write-before-use ordering its
comments insist on); in this sequential embedding that ordering is the
`marker := some line` update taking effect in every non-fatal outcome. -/
theorem consume_backslash_marker (st : LineCollector.LCState) (rest : List Char) :
    LineCollector.consume_line st ('\\' :: rest) =
      (if st.new_text.isEmpty = false then
        (if st.new_text.getLast? = some '\n' then
          .ok { st with marker := some ('\\' :: rest),
                        new_text := st.new_text.dropLast }
         else .error "assertion failed: new_text does not end in a newline")
       else if st.old_text.isEmpty = false then
        (if st.old_text.getLast? = some '\n' then
          .ok { st with marker := some ('\\' :: rest),
                        old_text := st.old_text.dropLast }
         else .error "assertion failed: old_text does not end in a newline")
       else
        .ok { st with marker := some ('\\' :: rest),
                      plain_text := st.plain_text ++ NO_EOF_NEWLINE_COLOR.data ++
                        ('\\' :: rest) ++ NORMAL.data ++ ['\n'] }) := by
  have hfix : LineCollector.get_fixed_highlight ('\\' :: rest) = none := by
    unfold LineCollector.get_fixed_highlight
    simp [List.isPrefixOf]
  unfold LineCollector.consume_line LineCollector.consume_classified
  rw [hfix]
  simp only [List.isPrefixOf]
  norm_num
  simp only [show ('c' = '\\') = False from by simp, show ('d' = '\\') = False from by simp,
    show ('-' = '\\') = False from by simp, show ('+' = '\\') = False from by simp,
    show ('@' = '\\') = False from by simp, show ('\\' = '-') = False from by simp,
    show ('\\' = '+') = False from by simp, false_and, if_false, false_or, or_self,
    ite_false, ite_true]
  unfold LineCollector.consume_no_eof_newline_marker
  by_cases hne : st.new_text = []
  · by_cases hoe : st.old_text = []
    · unfold LineCollector.consume_plain_line LineCollector.drain_oldnew
      simp [hne, hoe]
    · have hoe' : st.old_text.isEmpty = false := by simpa using hoe
      simp [hne, hoe, hoe']
  · have hne' : st.new_text.isEmpty = false := by simpa using hne
    simp [hne, hne']

/-! ## C3: exclusivity of the old/new block and the plain block -/

namespace LineCollector

theorem drain_oldnew_buffers (st : LCState) :
    (drain_oldnew st).old_text = [] ∧ (drain_oldnew st).new_text = [] := by
  unfold drain_oldnew
  split
  · rename_i h
    exact ⟨List.isEmpty_iff.mp h.1, List.isEmpty_iff.mp h.2⟩
  · exact ⟨rfl, rfl⟩

theorem drain_plain_buffer (st : LCState) : (drain_plain st).plain_text = [] := by
  unfold drain_plain
  split
  · rename_i h
    exact List.isEmpty_iff.mp h
  · rfl

theorem exclusive_consume_plain_line (st : LCState) (l : List Char) :
    exclusive (consume_plain_line st l) = true := by
  unfold exclusive consume_plain_line
  rcases drain_oldnew_buffers st with ⟨h1, h2⟩
  simp [h1, h2]

theorem exclusive_consume_old_line (st : LCState) (l : List Char) :
    exclusive (consume_old_line st l) = true := by
  unfold exclusive consume_old_line
  simp [drain_plain_buffer st]

theorem exclusive_consume_new_line (st : LCState) (l : List Char) :
    exclusive (consume_new_line st l) = true := by
  unfold exclusive consume_new_line
  simp [drain_plain_buffer st]

theorem exclusive_consume_hunk_header (st : LCState) (l : List Char) :
    exclusive (consume_hunk_header st l) = true := by
  unfold consume_hunk_header
  exact exclusive_consume_plain_line _ _

theorem isPrefixOf_append_self (p s : List Char) : p.isPrefixOf (p ++ s) = true := by
  induction p with
  | nil => simp
  | cons a as ih => simp [List.isPrefixOf, ih]

theorem dropPrefix?_eq_none_of_not_isPrefixOf {l p : List Char}
    (h : p.isPrefixOf l = false) : l.dropPrefix? p = none := by
  rcases hdp : l.dropPrefix? p with _ | s
  · rfl
  · rcases List.dropPrefix?_eq_some_iff.mp hdp with ⟨p', hl, hpp⟩
    have : p' = p := by simpa using hpp
    subst this
    rw [hl, isPrefixOf_append_self] at h
    cases h

/-- Consuming a `+++ ` filename-header line preserves the exclusivity
invariant (a `--- ` line does not: it stores the filename into the old
buffer without flushing the plain block). -/
theorem exclusive_consume_plusminus_header (st : LCState) (l : List Char)
    (hst : exclusive st = true) (hmmm : "--- ".data.isPrefixOf l = false)
    (st' : LCState) (hok : consume_plusminus_header st l = .ok st') :
    exclusive st' = true := by
  unfold consume_plusminus_header at hok
  rw [dropPrefix?_eq_none_of_not_isPrefixOf hmmm] at hok
  rcases hdp : l.dropPrefix? "+++ ".data with _ | new_name
  · rw [hdp] at hok
    simp at hok
  · rw [hdp] at hok
    simp only at hok
    by_cases hoe : st.old_text.isEmpty
    · rw [if_pos hoe] at hok
      cases hok
      exact hst
    · rw [if_neg hoe] at hok
      split at hok
      · cases hok
        exact exclusive_consume_plain_line _ _
      · split at hok
        · cases hok
          exact exclusive_consume_plain_line _ _
        · cases hok
          exact exclusive_consume_plain_line _ _

end LineCollector

namespace LineCollector

theorem exclusive_consume_no_eof_newline_marker (st : LCState)
    (hst : exclusive st = true) (m : List Char) (st' : LCState)
    (hok : consume_no_eof_newline_marker st m = .ok st') : exclusive st' = true := by
  unfold consume_no_eof_newline_marker at hok
  by_cases hne : st.new_text.isEmpty
  · rw [if_neg (by simp [hne])] at hok
    by_cases hoe : st.old_text.isEmpty
    · rw [if_neg (by simp [hoe])] at hok
      cases hok
      exact exclusive_consume_plain_line _ _
    · rw [if_pos (by simp [hoe])] at hok
      split at hok
      · cases hok
        unfold exclusive at hst ⊢
        simp only
        rcases Bool.or_eq_true_iff.mp hst with h | h
        · simp [h]
        · exact absurd (Bool.and_eq_true_iff.mp h).1 (by simp [hoe])
      · cases hok
  · rw [if_pos (by simp [hne])] at hok
    split at hok
    · cases hok
      unfold exclusive at hst ⊢
      simp only
      rcases Bool.or_eq_true_iff.mp hst with h | h
      · simp [h]
      · exact absurd (Bool.and_eq_true_iff.mp h).2 (by simp [hne])
    · cases hok

/-- The diff_seen flag does not affect exclusivity. -/
theorem exclusive_diff_seen (st : LCState) (b : Bool) :
    exclusive { st with diff_seen := b } = exclusive st := rfl

/-- The marker slot does not affect exclusivity. -/
theorem exclusive_marker (st : LCState) (m : Option (List Char)) :
    exclusive { st with marker := m } = exclusive st := rfl

end LineCollector

namespace LineCollector

theorem exclusive_consume_classified (st : LCState) (line : List Char)
    (hst : exclusive st = true) (hmmm : "--- ".data.isPrefixOf line = false)
    (st' : LCState) (hok : consume_classified st line = .ok st') :
    exclusive st' = true := by
  unfold consume_classified at hok
  rcases hfix : get_fixed_highlight line with _ | hl
  · rw [hfix] at hok
    simp only at hok
    split at hok
    · cases hok
      exact exclusive_consume_plain_line _ _
    · split at hok
      · exact exclusive_consume_plusminus_header st line hst hmmm st' hok
      · split at hok
        · cases hok
          exact exclusive_consume_hunk_header _ _
        · split at hok
          · cases hok
            exact exclusive_consume_plain_line _ _
          · split at hok
            · cases hok
              exact exclusive_consume_old_line _ _
            · split at hok
              · cases hok
                exact exclusive_consume_new_line _ _
              · split at hok
                · exact exclusive_consume_no_eof_newline_marker _
                    (by rw [exclusive_marker]; exact hst) _ _ hok
                · cases hok
                  exact exclusive_consume_plain_line _ _
  · rw [hfix] at hok
    simp only at hok
    cases hok
    exact exclusive_consume_plain_line _ _

end LineCollector

/-- C3 as amended: the exclusivity invariant — at most one of the old/new
accumulation block and the plain block non-empty — is preserved by every
consume operation *except* the consumption of a `--- ` filename-header line:
arrival of a diff-side line flushes the plain block first, arrival of a
plain-side line flushes the old/new block first, and the `+++ `, hunk-header,
empty, marker and plain branches preserve it too; but a `--- ` line stores
the old filename into the old buffer without flushing the plain block (see
the counterexample theorem). -/
theorem consume_line_preserves_exclusive (st : LineCollector.LCState)
    (line : List Char) (hst : LineCollector.exclusive st = true)
    (hmmm : "--- ".data.isPrefixOf line = false) (st' : LineCollector.LCState)
    (hok : LineCollector.consume_line st line = .ok st') :
    LineCollector.exclusive st' = true := by
  unfold LineCollector.consume_line at hok
  by_cases hd : "diff".data.isPrefixOf line
  · rw [if_pos hd] at hok
    exact LineCollector.exclusive_consume_classified _ line
      (by rw [LineCollector.exclusive_diff_seen]; exact hst) hmmm st' hok
  · rw [if_neg hd] at hok
    exact LineCollector.exclusive_consume_classified _ line hst hmmm st' hok

/-- Witness for C3 at the initial state and the line `+x`. -/
theorem consume_line_preserves_exclusive_witness :
    (LineCollector.exclusive LineCollector.initLC = true ∧
        "--- ".data.isPrefixOf "+x".data = false ∧
        LineCollector.consume_line LineCollector.initLC "+x".data =
          .ok { LineCollector.initLC with new_text := "x\n".data }) ∧
      LineCollector.exclusive { LineCollector.initLC with new_text := "x\n".data } = true :=
  ⟨⟨by decide, by decide, by rfl⟩,
    consume_line_preserves_exclusive LineCollector.initLC "+x".data (by decide)
      (by decide) _ (by rfl)⟩

/-- C3 counterexample: consuming the plain line `x` and then the filename
header `--- a` leaves *both* the plain block (`"x\n"`) and the old buffer
(`"a"`, the stored filename) non-empty, so the claimed invariant is not
preserved by every consume operation. -/
theorem exclusive_broken_by_filename_header :
    LineCollector.consume_line LineCollector.initLC "x".data =
      .ok { LineCollector.initLC with plain_text := "x\n".data } ∧
    LineCollector.consume_line
        { LineCollector.initLC with plain_text := "x\n".data } "--- a".data =
      .ok { LineCollector.initLC with plain_text := "x\n".data, old_text := "a".data } ∧
    LineCollector.exclusive
        { LineCollector.initLC with plain_text := "x\n".data, old_text := "a".data } =
      false := by
  refine ⟨by rfl, by rfl, by decide⟩

/-! ## C8: highlight_space_between_words promotes exactly the single
whitespace tokens lying between two inverse-styled word tokens -/

theorem whitespace_not_alphanum (c : Char) (h : c.isWhitespace = true) :
    c.isAlphanum = false := by
  simp only [Char.isWhitespace, Bool.or_eq_true, decide_eq_true_eq] at h
  rcases h with ((h | h) | h) | h <;> (subst h; decide)

/-- An inverse-styled word token is never a single-whitespace token. -/
theorem isInvWord_not_whitespace (t : StyledToken) (h : isInvWord t = true) :
    t.is_whitespace = false :=
  match t, h with
  | ⟨[], st⟩, h => by
    have hw := (Bool.and_eq_true_iff.mp h).2
    cases hw
  | ⟨[c], st⟩, h => by
    have hw := (Bool.and_eq_true_iff.mp h).2
    simp only [StyledToken.is_word] at hw
    simp only [StyledToken.is_whitespace]
    rcases hws : c.isWhitespace
    · rfl
    · rw [whitespace_not_alphanum c hws] at hw
      exact absurd hw (by simp)
  | ⟨a :: b :: r, st⟩, _ => rfl

/-- A single-whitespace token is never an inverse-styled word token. -/
theorem whitespace_not_isInvWord (t : StyledToken) (h : t.is_whitespace = true) :
    isInvWord t = false := by
  rcases hiw : isInvWord t
  · rfl
  · rw [isInvWord_not_whitespace t hiw] at h
    cases h

/-- The scan is in `highlightedWord` exactly when the token just processed
was an inverse-styled word. -/
theorem fsStep_eq_highlightedWord (s : FoundState) (t : StyledToken) :
    fsStep s t = .highlightedWord ↔ isInvWord t = true := by
  cases s with
  | nothing =>
    by_cases hiw : isInvWord t <;> simp [fsStep, hiw]
  | highlightedWord =>
    by_cases hws : t.is_whitespace
    · simp [fsStep, hws, whitespace_not_isInvWord t hws]
    · by_cases hiw : isInvWord t <;> simp [fsStep, hws, hiw]
  | wordSpace =>
    by_cases hiw : isInvWord t <;> simp [fsStep, hiw]

/-- The scan is in `wordSpace` exactly when it was in `highlightedWord` and
the token just processed was a single whitespace. -/
theorem fsStep_eq_wordSpace (s : FoundState) (t : StyledToken) :
    fsStep s t = .wordSpace ↔ (s = .highlightedWord ∧ t.is_whitespace = true) := by
  cases s with
  | nothing =>
    by_cases hiw : isInvWord t <;> simp [fsStep, hiw]
  | highlightedWord =>
    by_cases hws : t.is_whitespace
    · simp [fsStep, hws]
    · by_cases hiw : isInvWord t <;> simp [fsStep, hws, hiw]
  | wordSpace =>
    by_cases hiw : isInvWord t <;> simp [fsStep, hiw]

/-- Window-style description of `highlight_space_between_words` (used to
state C8): walk the row emitting each token, promoting it exactly when its
left neighbour (`p` for the first element) is an inverse-styled word, it is
itself a single whitespace, and its right neighbour is an inverse-styled
word. -/
def wmCons (p prev : StyledToken) : List StyledToken → List StyledToken
  | [] => [prev]
  | t :: rest =>
    (if isInvWord p ∧ prev.is_whitespace ∧ isInvWord t then promote prev else prev) ::
      wmCons prev t rest

theorem hsbwGo_eq_wmCons :
    ∀ (rest : List StyledToken) (s : FoundState) (prev p : StyledToken),
    (s = .highlightedWord ↔ isInvWord prev = true) →
    (s = .wordSpace ↔ (isInvWord p = true ∧ prev.is_whitespace = true)) →
    hsbwGo s prev rest = wmCons p prev rest := by
  intro rest
  induction rest with
  | nil => intros; rfl
  | cons t r ih =>
    intro s prev p h1 h2
    unfold hsbwGo wmCons
    have hcond : (s = .wordSpace ∧ isInvWord t = true) ↔
        (isInvWord p = true ∧ prev.is_whitespace = true ∧ isInvWord t = true) := by
      rw [h2]
      tauto
    congr 1
    · exact if_congr hcond rfl rfl
    · refine ih (fsStep s t) t prev (fsStep_eq_highlightedWord s t) ?_
      rw [fsStep_eq_wordSpace s t, h1]

/-- A token that is never an inverse-styled word, used as the virtual left
neighbour of a row's first token. -/
def spaceDummy : StyledToken := ⟨[' '], .new⟩

theorem hsbw_eq_wmCons (h : StyledToken) (rest : List StyledToken) :
    highlight_space_between_words (h :: rest) = wmCons spaceDummy h rest := by
  unfold highlight_space_between_words
  refine hsbwGo_eq_wmCons rest (fsStep .nothing h) h spaceDummy
    (fsStep_eq_highlightedWord .nothing h) ?_
  rw [fsStep_eq_wordSpace]
  constructor
  · intro hc
    exact absurd hc.1 (by simp)
  · intro hc
    exact absurd hc.1 (by decide)

theorem wmCons_get? :
    ∀ (rest : List StyledToken) (p prev : StyledToken) (i : Nat),
    (wmCons p prev rest).get? i =
      ((prev :: rest).get? i).map (fun t =>
        if ((p :: prev :: rest).get? i).any isInvWord && t.is_whitespace &&
            ((prev :: rest).get? (i + 1)).any isInvWord then promote t else t) := by
  intro rest
  induction rest with
  | nil =>
    intro p prev i
    match i with
    | 0 => simp [wmCons, Option.any]
    | n + 1 =>
      simp [wmCons]
  | cons t r ih =>
    intro p prev i
    match i with
    | 0 =>
      simp only [wmCons, List.get?_cons_zero, Option.map_some, Option.any_some,
        List.get?_cons_succ]
      by_cases h1 : isInvWord p <;> by_cases h2 : prev.is_whitespace <;>
        by_cases h3 : isInvWord t <;> simp [h1, h2, h3]
    | n + 1 =>
      simp only [wmCons, List.get?_cons_succ]
      exact ih prev t n

/-- Is the token to the left of position `i` an inverse-styled word token
(false at the row start, which has no left neighbour)? -/
def leftInvWord (row : List StyledToken) : Nat → Bool
  | 0 => false
  | n + 1 => (row.get? n).any isInvWord

/-- C8: on every row (either side), `highlight_space_between_words` promotes
a token to its inverted style exactly when it is a single whitespace token
lying between two inverse-styled word tokens — the left neighbour and right
neighbour are inverse-styled words — following the finite-state scan
Nothing→HighlightedWord on an inverse word, HighlightedWord→WordSpace on a
single whitespace, WordSpace→HighlightedWord (promoting the preceding
whitespace) on another inverse word, any other input resetting to Nothing;
in particular inverse `Monkey`, one plain space, inverse `Dance` comes out
with the space also inverse. -/
theorem space_between_words_promotion (row : List StyledToken) (i : Nat) :
    ((highlight_space_between_words row).get? i =
      (row.get? i).map (fun t =>
        if leftInvWord row i && t.is_whitespace && (row.get? (i + 1)).any isInvWord
        then promote t else t)) ∧
      highlight_space_between_words
          [⟨"Monkey".data, .newInverse⟩, ⟨" ".data, .new⟩, ⟨"Dance".data, .newInverse⟩] =
        [⟨"Monkey".data, .newInverse⟩, ⟨" ".data, .newInverse⟩,
          ⟨"Dance".data, .newInverse⟩] := by
  refine ⟨?_, by decide⟩
  match row with
  | [] => simp [highlight_space_between_words]
  | h :: rest =>
    rw [hsbw_eq_wmCons, wmCons_get?]
    match i with
    | 0 =>
      simp only [List.get?_cons_zero, Option.any_some, leftInvWord]
      have : isInvWord spaceDummy = false := rfl
      simp [this]
    | n + 1 =>
      simp only [List.get?_cons_succ, leftInvWord]

/-! ## C9: minimal escape emission in render_row -/

namespace TokenCollector

/-- The per-token emission rule as the spec words it: emit an inverse-video
toggle escape only when the token's inverse flag differs from the previous
token's (the line prefix standing in for the row start), a color escape only
when the token's color differs from the previously active color, then the
token text. -/
def emitSpecGo (prev : Style) : List StyledToken → String
  | [] => ""
  | t :: rest =>
    (if t.style.isInverse ≠ prev.isInverse then
      (if t.style.isInverse then INVERSE_VIDEO else NOT_INVERSE_VIDEO) else "") ++
      (if t.style.color ≠ prev.color then t.style.color else "") ++
      (⟨t.token⟩ : String) ++ emitSpecGo t.style rest

/-- `render_row` as the spec words it (for non-empty rows): the highlight
passes, then the line prefix token first — its style establishing the initial
inverse flag and active color — then the minimally escaped tokens, then the
full reset. -/
def render_row_spec (line_pref : StyledToken) (row : List StyledToken) : String :=
  (if line_pref.style.isInverse then INVERSE_VIDEO else "") ++
    line_pref.style.color ++ (⟨line_pref.token⟩ : String) ++
    emitSpecGo line_pref.style (applyRowPasses line_pref row) ++ NORMAL

theorem emitGo_eq_emitSpecGo :
    ∀ (l : List StyledToken) (s : Style) (is_inverse : Bool) (color : String),
    is_inverse = s.isInverse → color = s.color →
    emitGo is_inverse color l = emitSpecGo s l := by
  intro l
  induction l with
  | nil => intros; rfl
  | cons t rest ih =>
    intro s is_inverse color hinv hcolor
    unfold emitGo emitSpecGo
    subst hinv hcolor
    dsimp only
    have hrec : emitGo t.style.isInverse
        (if t.style.color ≠ s.color then t.style.color else s.color) rest =
        emitSpecGo t.style rest := by
      by_cases hc : t.style.color = s.color
      · rw [if_neg (by simp [hc])]
        exact ih t.style _ _ rfl hc.symm
      · rw [if_pos hc]
        exact ih t.style _ _ rfl rfl
    rw [hrec]
    by_cases hti : t.style.isInverse <;> by_cases hsi : s.isInverse <;>
      simp [hti, hsi, String.append_assoc]
end TokenCollector

/-- C9 as amended: for every *non-empty* row, `TokenCollector`'s row
rendering emits the line prefix token first (its style establishing the
initial inverse flag and active color), then for each token an inverse-video
toggle escape only when the token's inverse flag differs from the current
one, a color escape only when the token's color differs from the currently
active color, then the token text; and it terminates the row with a full
reset.  (An empty row — a blank line — renders as the empty string, with no
prefix and no reset: see the counterexample theorem.) -/
theorem render_row_minimal_escapes (line_pref : StyledToken)
    (row : List StyledToken) (hrow : row ≠ []) :
    TokenCollector.render_row line_pref row =
      TokenCollector.render_row_spec line_pref row := by
  unfold TokenCollector.render_row TokenCollector.render_row_spec
  rw [if_neg (by simpa using hrow)]
  dsimp only
  rw [TokenCollector.emitGo_eq_emitSpecGo _ line_pref.style _ _ rfl rfl]

/-- Witness for C9 at a concrete one-token row. -/
theorem render_row_minimal_escapes_witness :
    ([(⟨"hej".data, Style.new⟩ : StyledToken)] ≠ []) ∧
      TokenCollector.render_row ⟨"+".data, Style.new⟩ [⟨"hej".data, Style.new⟩] =
        TokenCollector.render_row_spec ⟨"+".data, Style.new⟩ [⟨"hej".data, Style.new⟩] :=
  ⟨by decide,
    render_row_minimal_escapes ⟨"+".data, Style.new⟩ [⟨"hej".data, Style.new⟩]
      (by decide)⟩

/-- C9 counterexample: an empty row (as produced for each blank line by
`render`'s row splitting) renders as the empty string: no line prefix token
and no terminating full-reset escape is emitted.  Rendering a collector
holding two newline tokens emits just `"\n\n"`, which contains no reset
escape at all, contradicting "emits the line prefix token first ... and
terminates every row with the full-reset escape" for those rows. -/
theorem render_row_empty_no_prefix_no_reset :
    TokenCollector.render_row ⟨"+".data, Style.new⟩ [] = "" ∧
      TokenCollector.render ⟨"+".data, Style.new⟩
          [⟨"\n".data, Style.new⟩, ⟨"\n".data, Style.new⟩] = "\n\n" ∧
      containsSeq NORMAL.data "\n\n".data = false := by
  refine ⟨rfl, rfl, by decide⟩
